import Mathlib

/-!
Shallow embedding of src/download.py (instagram-downloader).

Strings are modelled as List Char.  The filesystem layout that the script
reads and writes is modelled explicitly; the external instaloader library
(network fetches) is modelled as an environment of oracles; Python
exceptions are modelled as Option values and branch outcomes.
-/

namespace InstaDL

/-- Character-list view of a string literal. -/
def str (s : String) : List Char := s.data

/-- Boolean test that the second list begins with the first (the pattern). -/
def startsWithL : List Char → List Char → Bool
  | [], _ => true
  | _ :: _, [] => false
  | a :: as, b :: bs => a == b && startsWithL as bs

/-- Python substring containment test, as in the expression shortcode in filename. -/
def containsSub (n : List Char) : List Char → Bool
  | [] => n.isEmpty
  | c :: cs => startsWithL n (c :: cs) || containsSub n cs

/-- Python str.endswith for a single literal ending. -/
def endsWithL (e s : List Char) : Bool := startsWithL e.reverse s.reverse

/-- Greedy run of non-slash characters: the maximal match of the regex piece
matching one or more characters other than a slash. -/
def takeNonSlash : List Char → List Char
  | [] => []
  | c :: cs => if c = '/' then [] else c :: takeNonSlash cs

/-- Characters removed by Python str.strip(). -/
def isPySpace (c : Char) : Bool :=
  c == ' ' || c == '\t' || c == '\n' || c == '\r' || c == Char.ofNat 11 || c == Char.ofNat 12

/-- Python str.strip(): drop whitespace from both ends. -/
def stripL (s : List Char) : List Char :=
  ((s.dropWhile isPySpace).reverse.dropWhile isPySpace).reverse

/-- Literal part of the regex used by extract_shortcode_from_url. -/
def marker : List Char := str "instagram.com/p/"

/-- Model of re.search for the pattern: the literal p, then a nonempty greedy
run of non-slash characters (the captured group), then an optional slash
(which constrains nothing).  Start positions are tried left to right and the
captured group of the first fully matching position is returned. -/
def findTokenAfter (p : List Char) : List Char → Option (List Char)
  | [] => none
  | c :: cs =>
    if startsWithL p (c :: cs) then
      if (takeNonSlash ((c :: cs).drop p.length)).isEmpty then findTokenAfter p cs
      else some (takeNonSlash ((c :: cs).drop p.length))
    else findTokenAfter p cs

/-- Model of extract_shortcode_from_url (src/download.py lines 60-70):
some shortcode on a regex match, none for the raised ValueError. -/
def extractShortcode (url : List Char) : Option (List Char) :=
  findTokenAfter marker url

/-- Post type hint passed to is_already_downloaded. -/
inductive PostType
  | album
  | image
  | video
deriving DecidableEq

/-- The three final-layout locations as the dedup check sees them: names of
existing subdirectories of albums/, and the filename listings of the two flat
directories, where none models a directory that does not exist. -/
structure DirState where
  albumDirs : List (List Char)
  imagesDir : Option (List (List Char))
  videosDir : Option (List (List Char))
deriving DecidableEq

/-- Scan of a flat directory for any filename containing the shortcode as a
substring; a nonexistent directory yields no match. -/
def scanDir (d : Option (List (List Char))) (shortcode : List Char) : Bool :=
  match d with
  | none => false
  | some files => files.any (fun f => containsSub shortcode f)

/-- Model of is_already_downloaded (src/download.py lines 72-127). -/
def is_already_downloaded (shortcode : List Char) (d : DirState) : Option PostType → Bool
  | some .album => d.albumDirs.any (fun a => a == shortcode)
  | some .image => scanDir d.imagesDir shortcode
  | some .video => scanDir d.videosDir shortcode
  | none =>
    if d.albumDirs.any (fun a => a == shortcode) then true
    else if scanDir d.imagesDir shortcode then true
    else scanDir d.videosDir shortcode

/-- Probe of one of the three locations, for stating the order of checks. -/
inductive Probe
  | album
  | image
  | video
deriving DecidableEq

/-- Instrumented no-hint dedup check recording which locations are consulted,
mirroring the if-chain of the post_type-absent branch. -/
def dedupProbes (shortcode : List Char) (d : DirState) : List Probe × Bool :=
  if d.albumDirs.any (fun a => a == shortcode) then ([.album], true)
  else if scanDir d.imagesDir shortcode then ([.album, .image], true)
  else if scanDir d.videosDir shortcode then ([.album, .image, .video], true)
  else ([.album, .image, .video], false)

/-- Recognized image extensions, as in the endswith tuples of main. -/
def imageExt (f : List Char) : Bool :=
  endsWithL (str ".jpg") f || endsWithL (str ".jpeg") f || endsWithL (str ".png") f

/-- Recognized media extensions of the album branch endswith tuple. -/
def mediaExt (f : List Char) : Bool :=
  imageExt f || endsWithL (str ".mp4") f

/-- Destination of one file in the move phase of main (lines 297-321). -/
inductive Dest
  | toAlbum
  | toImages
  | toVideos
  | unmoved
deriving DecidableEq

/-- Destination decision for a single filename, translated from the
classification branches of main: in the album branch every recognized media
file goes to the album subdirectory; otherwise an image-extension file goes to
individual_images only when the post is not a video, and an mp4 file goes to
individual_videos. -/
def destOf (isAlbum isVideo : Bool) (f : List Char) : Dest :=
  if isAlbum then
    if mediaExt f then .toAlbum else .unmoved
  else
    if imageExt f && !isVideo then .toImages
    else if endsWithL (str ".mp4") f then .toVideos
    else .unmoved

/-- Classification facts read off the fetched post object. -/
structure Post where
  isAlbum : Bool
  isVideo : Bool
deriving DecidableEq

/-- Filesystem state touched by the orchestrator: the three final-layout
directories (which main creates up front, so they exist), the files placed in
the album subdirectories as pairs of shortcode and filename, and the existing
per-shortcode temporary directories. -/
structure FS where
  albums : List (List Char)
  images : List (List Char)
  videos : List (List Char)
  albumFiles : List (List Char × List Char)
  temps : List (List Char)
deriving DecidableEq

/-- View of the layout directories as the dedup check sees them; main has
created all three directories, so the flat ones exist. -/
def FS.toDirState (fs : FS) : DirState :=
  { albumDirs := fs.albums, imagesDir := some fs.images, videosDir := some fs.videos }

/-- Name of the per-shortcode temporary directory. -/
def tempName (sc : List Char) : List Char := str "temp_" ++ sc

/-- Model of os.makedirs(temp_dir, exist_ok=True). -/
def addTemp (sc : List Char) (fs : FS) : FS :=
  if fs.temps.any (fun t => t == tempName sc) then fs
  else { fs with temps := fs.temps ++ [tempName sc] }

/-- Model of shutil.rmtree(temp_dir). -/
def removeTemp (sc : List Char) (fs : FS) : FS :=
  { fs with temps := fs.temps.filter (fun t => !(t == tempName sc)) }

/-- Model of os.makedirs(album_subdir, exist_ok=True). -/
def addAlbumDir (sc : List Char) (fs : FS) : FS :=
  if fs.albums.any (fun a => a == sc) then fs
  else { fs with albums := fs.albums ++ [sc] }

/-- Folding one file move into the filesystem. -/
def moveFile (p : Post) (sc : List Char) (fs : FS) (f : List Char) : FS :=
  match destOf p.isAlbum p.isVideo f with
  | .toAlbum => { fs with albumFiles := fs.albumFiles ++ [(sc, f)] }
  | .toImages => { fs with images := fs.images ++ [f] }
  | .toVideos => { fs with videos := fs.videos ++ [f] }
  | .unmoved => fs

/-- Model of the move phase of main: in the album branch the album
subdirectory is created first, then each file of the temporary directory is
moved according to its destination (unrecognized files stay behind). -/
def placeInFS (p : Post) (sc : List Char) (files : List (List Char)) (fs : FS) : FS :=
  (files.foldl (moveFile p sc) (if p.isAlbum then addAlbumDir sc fs else fs))

/-- Oracles for the external instaloader collaborator: whether
Post.from_shortcode succeeds, which files download_post writes into the
temporary directory (none models a raised exception), the classification
attributes of the post, and whether the move phase itself raises. -/
structure Env where
  fromShortcodeOk : List Char → Bool
  downloadFiles : List Char → Option (List (List Char))
  postOf : List Char → Post
  placeOk : List Char → Bool

/-- Orchestrator state: filesystem, the three counters of main, and ghost
logs used only to state properties (URLs iterated, shortcodes for which a
fetch was started, shortcodes whose processing completed successfully). -/
structure RunState where
  fs : FS
  processed : Nat
  skipped : Nat
  failed : Nat
  attempted : List (List Char)
  fetchCalls : List (List Char)
  successes : List (List Char)
deriving DecidableEq

/-- One non-blank URL of the loop body of main (lines 262-332).  The delay
call is a pure no-op here.  Exceptions anywhere in the try block are caught
by the per-URL handler, which increments failed and continues. -/
def processUrl (env : Env) (st : RunState) (url : List Char) : RunState :=
  let st := { st with attempted := st.attempted ++ [url] }
  match extractShortcode url with
  | none => { st with failed := st.failed + 1 }
  | some sc =>
    let st := { st with processed := st.processed + 1 }
    if is_already_downloaded sc st.fs.toDirState none then
      { st with skipped := st.skipped + 1 }
    else
      let st := { st with fetchCalls := st.fetchCalls ++ [sc] }
      if !env.fromShortcodeOk sc then
        { st with failed := st.failed + 1 }
      else
        let fs1 := addTemp sc st.fs
        match env.downloadFiles sc with
        | none => { st with fs := fs1, failed := st.failed + 1 }
        | some files =>
          if !env.placeOk sc then
            { st with fs := fs1, failed := st.failed + 1 }
          else
            let fs2 := placeInFS (env.postOf sc) sc files fs1
            { st with fs := removeTemp sc fs2, successes := st.successes ++ [sc] }

/-- One input line: strip it, skip it when blank, else run the loop body. -/
def processLine (env : Env) (st : RunState) (line : List Char) : RunState :=
  let url := stripL line
  if url.isEmpty then st else processUrl env st url

/-- The whole loop over the input lines. -/
def runLines (env : Env) (st : RunState) : List (List Char) → RunState
  | [] => st
  | l :: ls => runLines env (processLine env st l) ls

/-- Initial orchestrator state over a given filesystem. -/
def initState (fs : FS) : RunState :=
  { fs := fs, processed := 0, skipped := 0, failed := 0,
    attempted := [], fetchCalls := [], successes := [] }

/-- One run of the orchestrator loop from a given filesystem. -/
def run (env : Env) (fs : FS) (lines : List (List Char)) : RunState :=
  runLines env (initState fs) lines

/-- Count of non-blank input lines, as computed before the loop. -/
def totalUrls (lines : List (List Char)) : Nat :=
  lines.countP (fun l => !(stripL l).isEmpty)

/-- Succeeded count printed by the summary: processed - skipped - failed,
evaluated in the integers as Python does. -/
def reported (st : RunState) : Int :=
  (st.processed : Int) - (st.skipped : Int) - (st.failed : Int)

/-- Setup configuration of main before the loop: optional proxy with the
outcome of its test, whether the test is skipped, the optional cookie file
with the outcome of loading it, and whether the input file exists. -/
structure Config where
  proxy : Option (List Char)
  skipProxyTest : Bool
  proxyWorks : Bool
  cookies : Option Bool
  inputFileExists : Bool
  lines : List (List Char)

/-- Result of main: aborted during setup (before any URL is touched), or
completed through the loop to the summary. -/
inductive MainResult
  | abortedProxy
  | abortedCookies
  | abortedNoInput
  | completed (st : RunState)

/-- Whether main reached the loop and the summary. -/
def MainResult.isCompleted : MainResult → Bool
  | .completed _ => true
  | _ => false

/-- Model of main's setup phase (lines 186-250): proxy test, cookie loading,
input file check, in the order of the source; each failure returns before the
loop starts. -/
def mainRun (cfg : Config) (env : Env) (fs : FS) : MainResult :=
  if cfg.proxy.isSome && !cfg.skipProxyTest && !cfg.proxyWorks then .abortedProxy
  else if cfg.cookies == some false then .abortedCookies
  else if !cfg.inputFileExists then .abortedNoInput
  else .completed (run env fs cfg.lines)

/-- Empty filesystem: the three layout directories exist and are empty and no
temporary directory is present. -/
def emptyFS : FS :=
  { albums := [], images := [], videos := [], albumFiles := [], temps := [] }

/-- A moved file of the non-album branches: its destination is one of the two
flat directories. -/
def movedFlat (p : Post) (f : List Char) : Bool :=
  decide (destOf p.isAlbum p.isVideo f = Dest.toImages) ||
    decide (destOf p.isAlbum p.isVideo f = Dest.toVideos)

/-- Detectability of a completed download by the dedup check: an album is
always detected through its subdirectory; a single image or video only when
some moved filename contains the shortcode as a substring. -/
def detectable (env : Env) (sc : List Char) : Bool :=
  (env.postOf sc).isAlbum ||
    (match env.downloadFiles sc with
     | none => false
     | some files => files.any (fun f => movedFlat (env.postOf sc) f && containsSub sc f))

/-- Post object of the simplest kind. -/
def trivPost : Post := { isAlbum := false, isVideo := false }

/-- Environment where every fetch fails at Post.from_shortcode. -/
def envNone : Env :=
  { fromShortcodeOk := fun _ => false, downloadFiles := fun _ => none,
    postOf := fun _ => trivPost, placeOk := fun _ => true }

/-- Environment fetching a single image whose filename does not contain the
shortcode, the shape produced by the library's date-based naming. -/
def envSingleImage : Env :=
  { fromShortcodeOk := fun _ => true,
    downloadFiles := fun _ => some [str "photo1.jpg"],
    postOf := fun _ => trivPost, placeOk := fun _ => true }

/-- Environment fetching an album of two images for every shortcode. -/
def envAlbum : Env :=
  { fromShortcodeOk := fun _ => true,
    downloadFiles := fun _ => some [str "1.jpg", str "2.jpg"],
    postOf := fun _ => { isAlbum := true, isVideo := false }, placeOk := fun _ => true }

/-- Environment where download_post raises for every shortcode, after the
temporary directory has been created. -/
def envDownloadErr : Env :=
  { fromShortcodeOk := fun _ => true, downloadFiles := fun _ => none,
    postOf := fun _ => trivPost, placeOk := fun _ => true }

/-- Environment for the five-URL scenario: the fetch of shortcode a3 raises,
every other shortcode downloads one image named after it. -/
def env5 : Env :=
  { fromShortcodeOk := fun sc => !(sc == str "a3"),
    downloadFiles := fun sc => some [sc ++ str ".jpg"],
    postOf := fun _ => trivPost, placeOk := fun _ => true }

/-- The five post URLs of the failure-isolation scenario. -/
def urls5 : List (List Char) :=
  [str "https://www.instagram.com/p/a1/", str "https://www.instagram.com/p/a2/",
   str "https://www.instagram.com/p/a3/", str "https://www.instagram.com/p/a4/",
   str "https://www.instagram.com/p/a5/"]

/-- A typical single post URL. -/
def urlAbc : List Char := str "https://www.instagram.com/p/abc/"

/-- A second distinct post URL. -/
def urlXyz : List Char := str "https://www.instagram.com/p/xyz/"

/-- A third distinct post URL. -/
def urlWvu : List Char := str "https://www.instagram.com/p/wvu/"

/-- Growth order on the three layout directories: every entry of the first
state is present in the second.  Temporary directories are not compared. -/
def FSle (a b : FS) : Prop :=
  (∀ x ∈ a.albums, x ∈ b.albums) ∧ (∀ x ∈ a.images, x ∈ b.images) ∧
    (∀ x ∈ a.videos, x ∈ b.videos)

/-- Number of attempted URLs whose shortcode extraction raised. -/
def parseFailCount (st : RunState) : Nat :=
  st.attempted.countP (fun u => (extractShortcode u).isNone)

/-! Lemmas about the string helpers. -/

theorem startsWithL_iff (p : List Char) : ∀ s, startsWithL p s = true ↔ ∃ r, s = p ++ r := by
  induction p with
  | nil => intro s; simp [startsWithL]
  | cons a as ih =>
    intro s
    cases s with
    | nil => simp [startsWithL]
    | cons b bs =>
      simp only [startsWithL, Bool.and_eq_true, beq_iff_eq, ih, List.cons_append,
        List.cons.injEq]
      constructor
      · rintro ⟨rfl, r, rfl⟩; exact ⟨r, rfl, rfl⟩
      · rintro ⟨r, rfl, rfl⟩; exact ⟨rfl, r, rfl⟩

theorem containsSub_iff (n : List Char) : ∀ s, containsSub n s = true ↔ ∃ a b, s = a ++ n ++ b := by
  intro s
  induction s with
  | nil =>
    simp only [containsSub, List.isEmpty_iff]
    constructor
    · rintro rfl; exact ⟨[], [], rfl⟩
    · rintro ⟨a, b, h⟩
      rcases List.append_eq_nil.mp h.symm with ⟨h1, h2⟩
      exact (List.append_eq_nil.mp h1).2
  | cons c cs ih =>
    simp only [containsSub, Bool.or_eq_true, startsWithL_iff, ih]
    constructor
    · rintro (⟨r, hr⟩ | ⟨a, b, hab⟩)
      · exact ⟨[], r, by simpa using hr⟩
      · exact ⟨c :: a, b, by simp [hab]⟩
    · rintro ⟨a, b, h⟩
      cases a with
      | nil => exact Or.inl ⟨b, by simpa using h⟩
      | cons a0 as =>
        simp only [List.cons_append, List.cons.injEq] at h
        exact Or.inr ⟨as, b, h.2⟩

theorem takeNonSlash_append (t post : List Char) (h1 : ∀ c ∈ t, c ≠ '/')
    (h2 : ∀ c p2, post = c :: p2 → c = '/') : takeNonSlash (t ++ post) = t := by
  induction t with
  | nil =>
    cases post with
    | nil => rfl
    | cons c p2 => simp [takeNonSlash, h2 c p2 rfl]
  | cons a t ih =>
    have ha : a ≠ '/' := h1 a (by simp)
    simp only [List.cons_append, takeNonSlash, if_neg ha]
    show a :: takeNonSlash (t ++ post) = a :: t
    rw [ih (fun c hc => h1 c (by simp [hc]))]

theorem takeNonSlash_spec : ∀ s : List Char, ∃ r, s = takeNonSlash s ++ r ∧
    (∀ c ∈ takeNonSlash s, c ≠ '/') ∧ (∀ c r2, r = c :: r2 → c = '/') := by
  intro s
  induction s with
  | nil => exact ⟨[], rfl, by simp [takeNonSlash], by simp⟩
  | cons c cs ih =>
    by_cases hc : c = '/'
    · refine ⟨c :: cs, ?_, ?_, ?_⟩
      · simp [takeNonSlash, hc]
      · simp [takeNonSlash, hc]
      · intro d r2 h; cases h; exact hc
    · obtain ⟨r, hr, hns, hb⟩ := ih
      refine ⟨r, ?_, ?_, hb⟩
      · simp only [takeNonSlash, if_neg hc, List.cons_append]
        exact congrArg (c :: ·) hr
      · intro d hd
        simp only [takeNonSlash, if_neg hc, List.mem_cons] at hd
        rcases hd with rfl | hd
        · exact hc
        · exact hns d hd

theorem takeNonSlash_ne_nil {s : List Char} (h : ¬(takeNonSlash s).isEmpty = true) :
    ∃ c r, s = c :: r ∧ c ≠ '/' := by
  cases s with
  | nil => simp [takeNonSlash] at h
  | cons c cs =>
    by_cases hc : c = '/'
    · simp [takeNonSlash, hc] at h
    · exact ⟨c, cs, rfl, hc⟩

theorem take_len_append {α : Type} : ∀ (l1 l2 : List α) (k : Nat),
    (l1 ++ l2).take (l1.length + k) = l1 ++ l2.take k := by
  intro l1
  induction l1 with
  | nil => intro l2 k; simp
  | cons a l1 ih => intro l2 k; simp [List.length_cons, Nat.succ_add, ih]

/-! Lemmas about the search performed by extract_shortcode_from_url. -/

theorem findTokenAfter_pos (p s : List Char) (hs : s ≠ []) :
    findTokenAfter p s =
      if startsWithL p s then
        if (takeNonSlash (s.drop p.length)).isEmpty then findTokenAfter p s.tail
        else some (takeNonSlash (s.drop p.length))
      else findTokenAfter p s.tail := by
  cases s with
  | nil => exact absurd rfl hs
  | cons c cs => rfl

theorem findTokenAfter_cons_none {p : List Char} {c : Char} {cs : List Char}
    (h : findTokenAfter p (c :: cs) = none) : findTokenAfter p cs = none := by
  rw [findTokenAfter_pos p (c :: cs) (by simp), List.tail_cons] at h
  split at h
  · split at h
    · exact h
    · exact absurd h (by simp)
  · exact h

theorem findTokenAfter_isSome (p : List Char) : ∀ (pre : List Char) (c : Char) (post : List Char),
    c ≠ '/' → (findTokenAfter p (pre ++ p ++ c :: post)).isSome = true := by
  intro pre
  induction pre with
  | nil =>
    intro c post hc
    have hsw : startsWithL p (p ++ c :: post) = true :=
      (startsWithL_iff p _).mpr ⟨c :: post, rfl⟩
    have hdrop : (p ++ c :: post).drop p.length = c :: post := List.drop_left p (c :: post)
    rw [List.nil_append, findTokenAfter_pos p _ (by simp), if_pos hsw, hdrop]
    simp [takeNonSlash, hc]
  | cons a pre ih =>
    intro c post hc
    have hcons : (a :: pre) ++ p ++ c :: post = a :: (pre ++ p ++ c :: post) := by simp
    rw [hcons, findTokenAfter_pos p _ (by simp), List.tail_cons]
    split
    · split
      · exact ih c post hc
      · simp
    · exact ih c post hc

theorem findTokenAfter_some (p : List Char) : ∀ (s t : List Char), findTokenAfter p s = some t →
    ∃ pre post, s = pre ++ p ++ t ++ post ∧ t ≠ [] ∧ (∀ c ∈ t, c ≠ '/') ∧
      (∀ c p2, post = c :: p2 → c = '/') ∧
      (∀ pre2 c2 post2, s = pre2 ++ p ++ c2 :: post2 → c2 ≠ '/' → pre.length ≤ pre2.length) := by
  intro s
  induction s with
  | nil => intro t h; simp [findTokenAfter] at h
  | cons d ds ih =>
    intro t h
    rw [findTokenAfter_pos p (d :: ds) (by simp), List.tail_cons] at h
    by_cases hsw : startsWithL p (d :: ds) = true
    · rw [if_pos hsw] at h
      by_cases hemp : (takeNonSlash ((d :: ds).drop p.length)).isEmpty = true
      · rw [if_pos hemp] at h
        obtain ⟨pre1, post1, hds, ht, hns, hb, hleft⟩ := ih t h
        refine ⟨d :: pre1, post1, by simp [hds], ht, hns, hb, ?_⟩
        rintro pre2 c2 post2 heq hc2
        cases pre2 with
        | nil =>
          exfalso
          simp only [List.nil_append] at heq
          have hdrop : ((d :: ds).drop p.length) = c2 :: post2 := by
            rw [heq]; exact List.drop_left p _
          rw [hdrop] at hemp
          simp [takeNonSlash, hc2] at hemp
        | cons a pre2' =>
          have h2 := heq
          rw [List.cons_append, List.cons_append] at h2
          injection h2 with h2a h2b
          have hle := hleft pre2' c2 post2 h2b hc2
          simp only [List.length_cons]
          omega
      · rw [if_neg hemp] at h
        obtain ⟨r, hpr⟩ := (startsWithL_iff p (d :: ds)).mp hsw
        have hdrop : (d :: ds).drop p.length = r := by rw [hpr]; exact List.drop_left p r
        rw [hdrop] at h hemp
        have htok : takeNonSlash r = t := Option.some.inj h
        obtain ⟨rest, hrrest, hns, hb⟩ := takeNonSlash_spec r
        rw [htok] at hrrest hns
        refine ⟨[], rest, ?_, ?_, hns, hb, ?_⟩
        · rw [List.nil_append, hpr, hrrest, List.append_assoc]
        · intro hnil
          rw [hnil] at htok
          rw [htok] at hemp
          simp at hemp
        · intro pre2 c2 post2 _ _
          exact Nat.zero_le _
    · rw [if_neg (by simpa using hsw)] at h
      obtain ⟨pre1, post1, hds, ht, hns, hb, hleft⟩ := ih t h
      refine ⟨d :: pre1, post1, by simp [hds], ht, hns, hb, ?_⟩
      rintro pre2 c2 post2 heq hc2
      cases pre2 with
      | nil =>
        exfalso
        apply hsw
        simp only [List.nil_append] at heq
        exact (startsWithL_iff p _).mpr ⟨c2 :: post2, heq⟩
      | cons a pre2' =>
        have h2 := heq
        rw [List.cons_append, List.cons_append] at h2
        injection h2 with h2a h2b
        have hle := hleft pre2' c2 post2 h2b hc2
        simp only [List.length_cons]
        omega

theorem findTokenAfter_exact (p : List Char) : ∀ (pre tok post : List Char),
    tok ≠ [] → (∀ c ∈ tok, c ≠ '/') → (∀ c p2, post = c :: p2 → c = '/') →
    findTokenAfter p (pre ++ p) = none →
    findTokenAfter p (pre ++ p ++ tok ++ post) = some tok := by
  intro pre
  induction pre with
  | nil =>
    intro tok post ht hns hb _
    have hne : ([] : List Char) ++ p ++ tok ++ post ≠ [] := by
      simp only [List.nil_append, ne_eq, List.append_assoc]
      intro h
      exact ht (List.append_eq_nil.mp (List.append_eq_nil.mp h).2).1
    have hsw : startsWithL p (([] : List Char) ++ p ++ tok ++ post) = true :=
      (startsWithL_iff p _).mpr ⟨tok ++ post, by simp [List.append_assoc]⟩
    have hdrop : (([] : List Char) ++ p ++ tok ++ post).drop p.length = tok ++ post := by
      simp only [List.nil_append, List.append_assoc]
      exact List.drop_left p _
    rw [findTokenAfter_pos p _ hne, if_pos hsw, hdrop, takeNonSlash_append tok post hns hb,
      if_neg (by simpa [List.isEmpty_iff] using ht)]
  | cons a pre ih =>
    intro tok post ht hns hb hnone
    have hnone' : findTokenAfter p (pre ++ p) = none := by
      apply findTokenAfter_cons_none (c := a)
      rw [← List.cons_append]
      exact hnone
    have hcons : (a :: pre) ++ p ++ tok ++ post = a :: (pre ++ p ++ tok ++ post) := by simp
    rw [hcons, findTokenAfter_pos p _ (by simp), List.tail_cons]
    by_cases hsw : startsWithL p (a :: (pre ++ p ++ tok ++ post)) = true
    · rw [if_pos hsw]
      by_cases hemp : (takeNonSlash ((a :: (pre ++ p ++ tok ++ post)).drop p.length)).isEmpty = true
      · rw [if_pos hemp]
        exact ih tok post ht hns hb hnone'
      · exfalso
        obtain ⟨r, hpr⟩ := (startsWithL_iff p _).mp hsw
        have hdrop : (a :: (pre ++ p ++ tok ++ post)).drop p.length = r := by
          rw [hpr]; exact List.drop_left p r
        rw [hdrop] at hemp
        obtain ⟨c0, r0, hr, hc0⟩ := takeNonSlash_ne_nil hemp
        rw [hr] at hpr
        -- the list a :: (pre ++ p ++ tok ++ post) equals both p ++ c0 :: r0 and
        -- ((a :: pre) ++ p) ++ (tok ++ post); peel the first p.length + 1 characters
        have hform : a :: (pre ++ p ++ tok ++ post) = ((a :: pre) ++ p) ++ (tok ++ post) := by
          simp [List.append_assoc]
        have hlen : p.length + 1 ≤ ((a :: pre) ++ p).length := by
          simp only [List.length_append, List.length_cons]
          omega
        have htake1 : (a :: (pre ++ p ++ tok ++ post)).take (p.length + 1) =
            ((a :: pre) ++ p).take (p.length + 1) := by
          rw [hform]
          exact List.take_append_of_le_length hlen
        have htake2 : (a :: (pre ++ p ++ tok ++ post)).take (p.length + 1) = p ++ [c0] := by
          rw [hpr, take_len_append p (c0 :: r0) 1]
          simp [List.take]
        have hsplit : (a :: pre) ++ p =
            p ++ c0 :: (((a :: pre) ++ p).drop (p.length + 1)) := by
          conv_lhs => rw [← List.take_append_drop (p.length + 1) ((a :: pre) ++ p)]
          rw [← htake1, htake2]
          simp
        have hfound := findTokenAfter_isSome p [] c0 (((a :: pre) ++ p).drop (p.length + 1)) hc0
        rw [List.nil_append, ← hsplit] at hfound
        rw [hnone] at hfound
        simp at hfound
    · rw [if_neg (by simpa using hsw)]
      exact ih tok post ht hns hb hnone'

theorem extractShortcode_eq (s : List Char) : extractShortcode s = findTokenAfter marker s := rfl

/-! Lemmas about the dedup check. -/

theorem dedup_none_eq (sc : List Char) (d : DirState) :
    is_already_downloaded sc d none =
      (d.albumDirs.any (fun a => a == sc) || scanDir d.imagesDir sc || scanDir d.videosDir sc) := by
  cases h1 : d.albumDirs.any (fun a => a == sc) <;>
    cases h2 : scanDir d.imagesDir sc <;>
      cases h3 : scanDir d.videosDir sc <;>
        simp [is_already_downloaded, h1, h2, h3]

/-! Claims about the URL parser. -/

/-- C4, corrected.  The URL parser returns the token only for URLs containing
the substring instagram.com/p/ directly followed by the token (the first such
occurrence, with or without anything after it); and it fails for every URL
without a /p/ substring.  The first conjunct proves the failure half of the
claim; the second proves the success half restricted to the instagram.com/p/
prefix the code actually requires. -/
theorem claim_C4_amended :
    (∀ s : List Char, containsSub (str "/p/") s = false → extractShortcode s = none)
    ∧ (∀ pre tok post : List Char, tok ≠ [] → (∀ c ∈ tok, c ≠ '/') →
        (∀ c p2, post = c :: p2 → c = '/') → extractShortcode (pre ++ marker) = none →
        extractShortcode (pre ++ marker ++ tok ++ post) = some tok) := by
  constructor
  · intro s h
    cases hE : extractShortcode s with
    | none => rfl
    | some t =>
      exfalso
      rw [extractShortcode_eq] at hE
      obtain ⟨pre, post, hs, -, -, -, -⟩ := findTokenAfter_some marker s t hE
      have hm : marker = str "instagram.com" ++ str "/p/" := by decide
      have hcontains : containsSub (str "/p/") s = true := by
        rw [containsSub_iff]
        exact ⟨pre ++ str "instagram.com", t ++ post, by rw [hs, hm]; simp [List.append_assoc]⟩
      rw [h] at hcontains
      exact Bool.false_ne_true hcontains
  · intro pre tok post ht hns hb hnone
    rw [extractShortcode_eq] at hnone ⊢
    exact findTokenAfter_exact marker pre tok post ht hns hb hnone

/-- Witness for C4: a URL without a /p/ segment fails, and a URL built as
prefix, marker, token yields exactly the token. -/
theorem claim_C4_witness :
    extractShortcode (str "https://www.instagram.com/") = none
    ∧ extractShortcode (str "https://www." ++ marker ++ str "abc" ++ ([] : List Char)) =
        some (str "abc") := by
  constructor
  · exact claim_C4_amended.1 (str "https://www.instagram.com/") (by decide)
  · exact claim_C4_amended.2 (str "https://www.") (str "abc") []
      (by decide) (by decide) (fun c p2 h => absurd h (by simp)) (by decide)

/-- Counterexample for C4 as stated: this URL contains a /p/abc/ segment, yet
extraction fails because the segment is not preceded by instagram.com. -/
theorem claim_C4_counterexample :
    containsSub (str "/p/abc/") (str "https://example.com/p/abc/") = true
    ∧ extractShortcode (str "https://example.com/p/abc/") = none := by decide

/-- C10, corrected.  Extraction succeeds exactly when the input contains the
literal instagram.com/p/ followed by at least one non-slash character, and the
result is the maximal run of non-slash characters after the leftmost such
occurrence; the query-string example keeps the query text.  The host clause of
the claim fails (see the counterexample), and is weakened here to the failure
of every input lacking the marker substring. -/
theorem claim_C10_amended :
    (∀ s : List Char, (extractShortcode s).isSome = true ↔
      ∃ pre c post, s = pre ++ marker ++ c :: post ∧ c ≠ '/')
    ∧ (∀ s t : List Char, extractShortcode s = some t →
        ∃ pre post, s = pre ++ marker ++ t ++ post ∧ t ≠ [] ∧ (∀ c ∈ t, c ≠ '/') ∧
          (∀ c p2, post = c :: p2 → c = '/') ∧
          (∀ pre2 c2 post2, s = pre2 ++ marker ++ c2 :: post2 → c2 ≠ '/' →
            pre.length ≤ pre2.length))
    ∧ (∀ s : List Char, containsSub marker s = false → extractShortcode s = none)
    ∧ extractShortcode (str "https://www.instagram.com/p/abc?img_index=1") =
        some (str "abc?img_index=1") := by
  refine ⟨?_, ?_, ?_, by decide⟩
  · intro s
    constructor
    · intro h
      obtain ⟨t, hE⟩ := Option.isSome_iff_exists.mp h
      rw [extractShortcode_eq] at hE
      obtain ⟨pre, post, hs, ht, hns, hb, -⟩ := findTokenAfter_some marker s t hE
      cases t with
      | nil => exact absurd rfl ht
      | cons c t2 =>
        exact ⟨pre, c, t2 ++ post, by rw [hs]; simp [List.append_assoc], hns c (by simp)⟩
    · rintro ⟨pre, c, post, rfl, hc⟩
      rw [extractShortcode_eq]
      exact findTokenAfter_isSome marker pre c post hc
  · intro s t h
    rw [extractShortcode_eq] at h
    exact findTokenAfter_some marker s t h
  · intro s h
    cases hE : extractShortcode s with
    | none => rfl
    | some t =>
      exfalso
      rw [extractShortcode_eq] at hE
      obtain ⟨pre, post, hs, -, -, -, -⟩ := findTokenAfter_some marker s t hE
      have hcontains : containsSub marker s = true := by
        rw [containsSub_iff]
        exact ⟨pre, t ++ post, by rw [hs]; simp [List.append_assoc]⟩
      rw [h] at hcontains
      exact Bool.false_ne_true hcontains

/-- Witness for C10: a minimal input containing the marker followed by a
non-slash character is accepted. -/
theorem claim_C10_witness :
    (extractShortcode (str "instagram.com/p/zz")).isSome = true :=
  (claim_C10_amended.1 (str "instagram.com/p/zz")).mpr
    ⟨[], 'z', str "z", by decide, by decide⟩

/-- Counterexample for C10 as stated: a URL whose host is evil.com (it starts
with https followed by that host) succeeds because the marker occurs later in
its path, contradicting the clause that every URL on another host fails. -/
theorem claim_C10_counterexample :
    extractShortcode (str "https://evil.com/instagram.com/p/abc/") = some (str "abc")
    ∧ startsWithL (str "https://evil.com/") (str "https://evil.com/instagram.com/p/abc/") =
        true := by decide

/-! Claims about the dedup checker. -/

/-- C6, confirmed.  With no type hint the check is the ordered disjunction of
the album-directory hit, the image scan and the video scan; a nonexistent flat
directory is no match rather than an error; the instrumented probe list shows
the locations are consulted in the order album, image, video, stopping at the
first hit. -/
theorem claim_C6 :
    (∀ (sc : List Char) (d : DirState), is_already_downloaded sc d none =
      (d.albumDirs.any (fun a => a == sc) || scanDir d.imagesDir sc || scanDir d.videosDir sc))
    ∧ (∀ sc : List Char, scanDir none sc = false)
    ∧ (∀ (sc : List Char) (albums : List (List Char)) (ovids : Option (List (List Char))),
        is_already_downloaded sc ⟨albums, none, ovids⟩ none =
          (albums.any (fun a => a == sc) || scanDir ovids sc))
    ∧ (∀ (sc : List Char) (d : DirState), (dedupProbes sc d).2 = is_already_downloaded sc d none)
    ∧ (∀ (sc : List Char) (d : DirState),
        (dedupProbes sc d).1 = [Probe.album] ∨
          (dedupProbes sc d).1 = [Probe.album, Probe.image] ∨
          (dedupProbes sc d).1 = [Probe.album, Probe.image, Probe.video])
    ∧ (∀ (sc : List Char) (d : DirState), dedupProbes sc d = ([Probe.album], true) ↔
        d.albumDirs.any (fun a => a == sc) = true)
    ∧ (∀ (sc : List Char) (d : DirState), dedupProbes sc d = ([Probe.album, Probe.image], true) ↔
        (d.albumDirs.any (fun a => a == sc) = false ∧ scanDir d.imagesDir sc = true)) := by
  refine ⟨fun sc d => dedup_none_eq sc d, fun sc => rfl, ?_, ?_, ?_, ?_, ?_⟩
  · intro sc albums ovids
    rw [dedup_none_eq]
    simp [scanDir]
  · intro sc d
    cases h1 : d.albumDirs.any (fun a => a == sc) <;>
      cases h2 : scanDir d.imagesDir sc <;>
        cases h3 : scanDir d.videosDir sc <;>
          simp [dedupProbes, is_already_downloaded, h1, h2, h3]
  · intro sc d
    cases h1 : d.albumDirs.any (fun a => a == sc) <;>
      cases h2 : scanDir d.imagesDir sc <;>
        cases h3 : scanDir d.videosDir sc <;>
          simp [dedupProbes, h1, h2, h3]
  · intro sc d
    cases h1 : d.albumDirs.any (fun a => a == sc) <;>
      cases h2 : scanDir d.imagesDir sc <;>
        cases h3 : scanDir d.videosDir sc <;>
          simp [dedupProbes, h1, h2, h3]
  · intro sc d
    cases h1 : d.albumDirs.any (fun a => a == sc) <;>
      cases h2 : scanDir d.imagesDir sc <;>
        cases h3 : scanDir d.videosDir sc <;>
          simp [dedupProbes, h1, h2, h3]

/-- C7, corrected.  An existing album directory makes the album-hinted check
true; and a shortcode yields false for every hint provided additionally no
filename of the flat directories contains it as a substring — the middle
conjunct spells out that proviso.  Without it the claim fails: a file of
another, longer shortcode can contain the queried one (see the
counterexample). -/
theorem claim_C7_amended :
    (∀ (sc : List Char) (d : DirState), d.albumDirs.any (fun a => a == sc) = true →
      is_already_downloaded sc d (some .album) = true)
    ∧ (∀ (sc : List Char) (files : List (List Char)),
        scanDir (some files) sc = false ↔ ∀ f ∈ files, containsSub sc f = false)
    ∧ (∀ (sc : List Char) (d : DirState), d.albumDirs.any (fun a => a == sc) = false →
        scanDir d.imagesDir sc = false → scanDir d.videosDir sc = false →
        ∀ hint : Option PostType, is_already_downloaded sc d hint = false) := by
  refine ⟨?_, ?_, ?_⟩
  · intro sc d h
    simpa [is_already_downloaded] using h
  · intro sc files
    simp only [scanDir, ← Bool.not_eq_true, List.any_eq_true]
    push_neg
    constructor
    · intro h f hf
      simpa using h f hf
    · intro h f hf
      simpa using h f hf
  · intro sc d h1 h2 h3 hint
    cases hint with
    | none => simp [dedup_none_eq, h1, h2, h3]
    | some pt => cases pt <;> simp [is_already_downloaded, h1, h2, h3]

/-- Witness for C7: the album hint accepts an existing album directory, and a
shortcode contained in no filename is rejected with no hint. -/
theorem claim_C7_witness :
    is_already_downloaded (str "abc") ⟨[str "abc"], some [], some []⟩ (some .album) = true
    ∧ is_already_downloaded (str "zzz") ⟨[], some [str "a.jpg"], some []⟩ none = false := by
  constructor
  · exact claim_C7_amended.1 (str "abc") _ (by decide)
  · exact claim_C7_amended.2.2 (str "zzz") _ (by decide) (by decide) (by decide) none

/-- Counterexample for C7 as stated: the shortcode abc was never downloaded
(the only file present belongs to the distinct, longer shortcode xabcy), yet
the check returns true with no hint and with the image hint, because abc is a
substring of the filename. -/
theorem claim_C7_counterexample :
    is_already_downloaded (str "abc") ⟨[], some [str "xabcy.jpg"], some []⟩ none = true
    ∧ is_already_downloaded (str "abc") ⟨[], some [str "xabcy.jpg"], some []⟩ (some .image) = true
    ∧ containsSub (str "abc") (str "xabcy") = true
    ∧ str "abc" ≠ str "xabcy" := by decide

/-! Lemmas about the move phase. -/

theorem moveFile_albums (p : Post) (sc : List Char) (fs : FS) (f : List Char) :
    (moveFile p sc fs f).albums = fs.albums := by
  cases h : destOf p.isAlbum p.isVideo f <;> simp [moveFile, h]

theorem moveFile_temps (p : Post) (sc : List Char) (fs : FS) (f : List Char) :
    (moveFile p sc fs f).temps = fs.temps := by
  cases h : destOf p.isAlbum p.isVideo f <;> simp [moveFile, h]

theorem moveFile_images (p : Post) (sc : List Char) (fs : FS) (f : List Char) :
    (moveFile p sc fs f).images =
      fs.images ++ (if destOf p.isAlbum p.isVideo f = Dest.toImages then [f] else []) := by
  cases h : destOf p.isAlbum p.isVideo f <;> simp [moveFile, h]

theorem moveFile_videos (p : Post) (sc : List Char) (fs : FS) (f : List Char) :
    (moveFile p sc fs f).videos =
      fs.videos ++ (if destOf p.isAlbum p.isVideo f = Dest.toVideos then [f] else []) := by
  cases h : destOf p.isAlbum p.isVideo f <;> simp [moveFile, h]

theorem moveFile_albumFiles (p : Post) (sc : List Char) (fs : FS) (f : List Char) :
    (moveFile p sc fs f).albumFiles =
      fs.albumFiles ++ (if destOf p.isAlbum p.isVideo f = Dest.toAlbum then [(sc, f)] else []) := by
  cases h : destOf p.isAlbum p.isVideo f <;> simp [moveFile, h]

theorem foldMove_albums (p : Post) (sc : List Char) : ∀ (files : List (List Char)) (fs : FS),
    (files.foldl (moveFile p sc) fs).albums = fs.albums := by
  intro files
  induction files with
  | nil => intro fs; rfl
  | cons f rest ih => intro fs; rw [List.foldl_cons, ih, moveFile_albums]

theorem foldMove_temps (p : Post) (sc : List Char) : ∀ (files : List (List Char)) (fs : FS),
    (files.foldl (moveFile p sc) fs).temps = fs.temps := by
  intro files
  induction files with
  | nil => intro fs; rfl
  | cons f rest ih => intro fs; rw [List.foldl_cons, ih, moveFile_temps]

theorem foldMove_images (p : Post) (sc : List Char) : ∀ (files : List (List Char)) (fs : FS),
    (files.foldl (moveFile p sc) fs).images =
      fs.images ++ files.filter (fun f => decide (destOf p.isAlbum p.isVideo f = Dest.toImages)) := by
  intro files
  induction files with
  | nil => intro fs; simp
  | cons f rest ih =>
    intro fs
    rw [List.foldl_cons, ih, moveFile_images]
    by_cases hd : destOf p.isAlbum p.isVideo f = Dest.toImages <;>
      simp [hd, List.filter_cons]

theorem foldMove_videos (p : Post) (sc : List Char) : ∀ (files : List (List Char)) (fs : FS),
    (files.foldl (moveFile p sc) fs).videos =
      fs.videos ++ files.filter (fun f => decide (destOf p.isAlbum p.isVideo f = Dest.toVideos)) := by
  intro files
  induction files with
  | nil => intro fs; simp
  | cons f rest ih =>
    intro fs
    rw [List.foldl_cons, ih, moveFile_videos]
    by_cases hd : destOf p.isAlbum p.isVideo f = Dest.toVideos <;>
      simp [hd, List.filter_cons]

theorem foldMove_albumFiles (p : Post) (sc : List Char) : ∀ (files : List (List Char)) (fs : FS),
    (files.foldl (moveFile p sc) fs).albumFiles =
      fs.albumFiles ++ (files.filter
        (fun f => decide (destOf p.isAlbum p.isVideo f = Dest.toAlbum))).map (fun f => (sc, f)) := by
  intro files
  induction files with
  | nil => intro fs; simp
  | cons f rest ih =>
    intro fs
    rw [List.foldl_cons, ih, moveFile_albumFiles]
    by_cases hd : destOf p.isAlbum p.isVideo f = Dest.toAlbum <;>
      simp [hd, List.filter_cons]

theorem addAlbumDir_images (sc : List Char) (fs : FS) :
    (addAlbumDir sc fs).images = fs.images := by
  unfold addAlbumDir; split <;> rfl

theorem addAlbumDir_videos (sc : List Char) (fs : FS) :
    (addAlbumDir sc fs).videos = fs.videos := by
  unfold addAlbumDir; split <;> rfl

theorem addAlbumDir_albumFiles (sc : List Char) (fs : FS) :
    (addAlbumDir sc fs).albumFiles = fs.albumFiles := by
  unfold addAlbumDir; split <;> rfl

theorem addAlbumDir_temps (sc : List Char) (fs : FS) :
    (addAlbumDir sc fs).temps = fs.temps := by
  unfold addAlbumDir; split <;> rfl

theorem addAlbumDir_mem_self (sc : List Char) (fs : FS) :
    sc ∈ (addAlbumDir sc fs).albums := by
  unfold addAlbumDir
  split
  · next h =>
    obtain ⟨x, hx, hxe⟩ := List.any_eq_true.mp h
    exact (beq_iff_eq.mp hxe) ▸ hx
  · simp

theorem addAlbumDir_mem_mono (sc x : List Char) (fs : FS) (h : x ∈ fs.albums) :
    x ∈ (addAlbumDir sc fs).albums := by
  unfold addAlbumDir
  split
  · exact h
  · simp [h]

theorem placeInFS_images (p : Post) (sc : List Char) (files : List (List Char)) (fs : FS) :
    (placeInFS p sc files fs).images =
      fs.images ++ files.filter (fun f => decide (destOf p.isAlbum p.isVideo f = Dest.toImages)) := by
  unfold placeInFS
  rw [foldMove_images]
  congr 1
  cases h : p.isAlbum <;> simp [h, addAlbumDir_images]

theorem placeInFS_videos (p : Post) (sc : List Char) (files : List (List Char)) (fs : FS) :
    (placeInFS p sc files fs).videos =
      fs.videos ++ files.filter (fun f => decide (destOf p.isAlbum p.isVideo f = Dest.toVideos)) := by
  unfold placeInFS
  rw [foldMove_videos]
  congr 1
  cases h : p.isAlbum <;> simp [h, addAlbumDir_videos]

theorem placeInFS_albumFiles (p : Post) (sc : List Char) (files : List (List Char)) (fs : FS) :
    (placeInFS p sc files fs).albumFiles =
      fs.albumFiles ++ (files.filter
        (fun f => decide (destOf p.isAlbum p.isVideo f = Dest.toAlbum))).map (fun f => (sc, f)) := by
  unfold placeInFS
  rw [foldMove_albumFiles]
  congr 1
  cases h : p.isAlbum <;> simp [h, addAlbumDir_albumFiles]

theorem placeInFS_temps (p : Post) (sc : List Char) (files : List (List Char)) (fs : FS) :
    (placeInFS p sc files fs).temps = fs.temps := by
  unfold placeInFS
  rw [foldMove_temps]
  cases h : p.isAlbum <;> simp [h, addAlbumDir_temps]

theorem placeInFS_albums_true (p : Post) (sc : List Char) (files : List (List Char)) (fs : FS)
    (h : p.isAlbum = true) :
    (placeInFS p sc files fs).albums = (addAlbumDir sc fs).albums := by
  unfold placeInFS
  rw [foldMove_albums]
  simp [h]

theorem placeInFS_albums_false (p : Post) (sc : List Char) (files : List (List Char)) (fs : FS)
    (h : p.isAlbum = false) :
    (placeInFS p sc files fs).albums = fs.albums := by
  unfold placeInFS
  rw [foldMove_albums]
  simp [h]

/-! Claim about the file classifier and placer. -/

/-- C8, confirmed.  Only files with a recognized media extension are moved; in
the album branch every recognized file goes into the album subdirectory under
its own name; every mp4 of a single video goes to individual_videos; every
image-extension file of a single image goes to individual_images; no image
file goes to individual_images when the post is flagged video; the destination
lists are exactly the prior contents followed by the matching files in order;
and the two-image album example places a.jpg and b.jpg under albums/XYZ. -/
theorem claim_C8 :
    (∀ (a v : Bool) (f : List Char), mediaExt f = false → destOf a v f = Dest.unmoved)
    ∧ (∀ (v : Bool) (f : List Char), mediaExt f = true → destOf true v f = Dest.toAlbum)
    ∧ (∀ f : List Char, endsWithL (str ".mp4") f = true → destOf false true f = Dest.toVideos)
    ∧ (∀ f : List Char, imageExt f = true → destOf false false f = Dest.toImages)
    ∧ (∀ f : List Char, destOf false true f ≠ Dest.toImages)
    ∧ (∀ (p : Post) (sc : List Char) (files : List (List Char)) (fs : FS),
        (placeInFS p sc files fs).images =
            fs.images ++ files.filter (fun f => decide (destOf p.isAlbum p.isVideo f = Dest.toImages))
          ∧ (placeInFS p sc files fs).videos =
            fs.videos ++ files.filter (fun f => decide (destOf p.isAlbum p.isVideo f = Dest.toVideos))
          ∧ (placeInFS p sc files fs).albumFiles =
            fs.albumFiles ++ (files.filter
              (fun f => decide (destOf p.isAlbum p.isVideo f = Dest.toAlbum))).map (fun f => (sc, f)))
    ∧ placeInFS { isAlbum := true, isVideo := false } (str "XYZ")
        [str "a.jpg", str "b.jpg"] emptyFS =
        { albums := [str "XYZ"], images := [], videos := [],
          albumFiles := [(str "XYZ", str "a.jpg"), (str "XYZ", str "b.jpg")], temps := [] } := by
  refine ⟨?_, ?_, ?_, ?_, ?_, ?_, by decide⟩
  · intro a v f h
    have h1 : imageExt f = false ∧ endsWithL (str ".mp4") f = false := by
      simpa [mediaExt] using h
    cases a <;> simp [destOf, h, h1.1, h1.2]
  · intro v f h
    simp [destOf, h]
  · intro f h
    simp [destOf, h]
  · intro f h
    simp [destOf, h]
  · intro f
    simp only [destOf, Bool.not_true, Bool.and_false, Bool.false_eq_true, if_false]
    split <;> simp
  · intro p sc files fs
    exact ⟨placeInFS_images p sc files fs, placeInFS_videos p sc files fs,
      placeInFS_albumFiles p sc files fs⟩

/-- Witness for C8: an unrecognized sidecar file is left unmoved, a recognized
file joins the album, an mp4 of a video post goes to individual_videos, and an
image of an image post goes to individual_images. -/
theorem claim_C8_witness :
    destOf true false (str "notes.txt") = Dest.unmoved
    ∧ destOf true true (str "a.jpg") = Dest.toAlbum
    ∧ destOf false true (str "v.mp4") = Dest.toVideos
    ∧ destOf false false (str "a.jpg") = Dest.toImages :=
  ⟨claim_C8.1 true false (str "notes.txt") (by decide),
    claim_C8.2.1 true (str "a.jpg") (by decide),
    claim_C8.2.2.1 (str "v.mp4") (by decide),
    claim_C8.2.2.2.1 (str "a.jpg") (by decide)⟩

/-! Lemmas about the temporary directory bookkeeping. -/

theorem addTemp_albums (sc : List Char) (fs : FS) : (addTemp sc fs).albums = fs.albums := by
  unfold addTemp; split <;> rfl

theorem addTemp_images (sc : List Char) (fs : FS) : (addTemp sc fs).images = fs.images := by
  unfold addTemp; split <;> rfl

theorem addTemp_videos (sc : List Char) (fs : FS) : (addTemp sc fs).videos = fs.videos := by
  unfold addTemp; split <;> rfl

theorem addTemp_dirState (sc : List Char) (fs : FS) :
    (addTemp sc fs).toDirState = fs.toDirState := by
  unfold FS.toDirState
  rw [addTemp_albums, addTemp_images, addTemp_videos]

theorem addTemp_mem (sc : List Char) (fs : FS) : tempName sc ∈ (addTemp sc fs).temps := by
  unfold addTemp
  split
  · next h =>
    obtain ⟨x, hx, hxe⟩ := List.any_eq_true.mp h
    exact (beq_iff_eq.mp hxe) ▸ hx
  · simp

theorem removeTemp_albums (sc : List Char) (fs : FS) : (removeTemp sc fs).albums = fs.albums := rfl

theorem removeTemp_images (sc : List Char) (fs : FS) : (removeTemp sc fs).images = fs.images := rfl

theorem removeTemp_videos (sc : List Char) (fs : FS) : (removeTemp sc fs).videos = fs.videos := rfl

theorem removeTemp_not_mem (sc : List Char) (fs : FS) :
    tempName sc ∉ (removeTemp sc fs).temps := by
  intro h
  have h2 := (List.mem_filter.mp h).2
  simp at h2

/-! Branch equations for one loop iteration. -/

theorem processUrl_parse (env : Env) (st : RunState) (url : List Char)
    (h : extractShortcode url = none) :
    processUrl env st url =
      { st with attempted := st.attempted ++ [url], failed := st.failed + 1 } := by
  unfold processUrl
  rw [h]

theorem processUrl_skip (env : Env) (st : RunState) (url sc : List Char)
    (h : extractShortcode url = some sc)
    (hd : is_already_downloaded sc st.fs.toDirState none = true) :
    processUrl env st url =
      { st with
          attempted := st.attempted ++ [url]
          processed := st.processed + 1
          skipped := st.skipped + 1 } := by
  unfold processUrl
  rw [h]
  simp [hd]

theorem processUrl_early (env : Env) (st : RunState) (url sc : List Char)
    (h : extractShortcode url = some sc)
    (hd : is_already_downloaded sc st.fs.toDirState none = false)
    (hf : env.fromShortcodeOk sc = false) :
    processUrl env st url =
      { st with
          attempted := st.attempted ++ [url]
          processed := st.processed + 1
          fetchCalls := st.fetchCalls ++ [sc]
          failed := st.failed + 1 } := by
  unfold processUrl
  rw [h]
  simp [hd, hf]

theorem processUrl_dlfail (env : Env) (st : RunState) (url sc : List Char)
    (h : extractShortcode url = some sc)
    (hd : is_already_downloaded sc st.fs.toDirState none = false)
    (hf : env.fromShortcodeOk sc = true)
    (hdl : env.downloadFiles sc = none) :
    processUrl env st url =
      { st with
          attempted := st.attempted ++ [url]
          processed := st.processed + 1
          fetchCalls := st.fetchCalls ++ [sc]
          fs := addTemp sc st.fs
          failed := st.failed + 1 } := by
  unfold processUrl
  rw [h]
  simp [hd, hf, hdl]

theorem processUrl_placefail (env : Env) (st : RunState) (url sc : List Char)
    (files : List (List Char))
    (h : extractShortcode url = some sc)
    (hd : is_already_downloaded sc st.fs.toDirState none = false)
    (hf : env.fromShortcodeOk sc = true)
    (hdl : env.downloadFiles sc = some files)
    (hp : env.placeOk sc = false) :
    processUrl env st url =
      { st with
          attempted := st.attempted ++ [url]
          processed := st.processed + 1
          fetchCalls := st.fetchCalls ++ [sc]
          fs := addTemp sc st.fs
          failed := st.failed + 1 } := by
  unfold processUrl
  rw [h]
  simp [hd, hf, hdl, hp]

theorem processUrl_success (env : Env) (st : RunState) (url sc : List Char)
    (files : List (List Char))
    (h : extractShortcode url = some sc)
    (hd : is_already_downloaded sc st.fs.toDirState none = false)
    (hf : env.fromShortcodeOk sc = true)
    (hdl : env.downloadFiles sc = some files)
    (hp : env.placeOk sc = true) :
    processUrl env st url =
      { st with
          attempted := st.attempted ++ [url]
          processed := st.processed + 1
          fetchCalls := st.fetchCalls ++ [sc]
          fs := removeTemp sc (placeInFS (env.postOf sc) sc files (addTemp sc st.fs))
          successes := st.successes ++ [sc] } := by
  unfold processUrl
  rw [h]
  simp [hd, hf, hdl, hp]

/-- Exhaustive case analysis of one loop iteration on a non-blank URL. -/
theorem processUrl_cases (env : Env) (st : RunState) (url : List Char) :
    (extractShortcode url = none ∧ processUrl env st url =
      { st with attempted := st.attempted ++ [url], failed := st.failed + 1 })
    ∨ (∃ sc, extractShortcode url = some sc
        ∧ is_already_downloaded sc st.fs.toDirState none = true
        ∧ processUrl env st url =
          { st with
              attempted := st.attempted ++ [url]
              processed := st.processed + 1
              skipped := st.skipped + 1 })
    ∨ (∃ sc, extractShortcode url = some sc
        ∧ is_already_downloaded sc st.fs.toDirState none = false
        ∧ env.fromShortcodeOk sc = false
        ∧ processUrl env st url =
          { st with
              attempted := st.attempted ++ [url]
              processed := st.processed + 1
              fetchCalls := st.fetchCalls ++ [sc]
              failed := st.failed + 1 })
    ∨ (∃ sc, extractShortcode url = some sc
        ∧ is_already_downloaded sc st.fs.toDirState none = false
        ∧ env.fromShortcodeOk sc = true ∧ env.downloadFiles sc = none
        ∧ processUrl env st url =
          { st with
              attempted := st.attempted ++ [url]
              processed := st.processed + 1
              fetchCalls := st.fetchCalls ++ [sc]
              fs := addTemp sc st.fs
              failed := st.failed + 1 })
    ∨ (∃ sc files, extractShortcode url = some sc
        ∧ is_already_downloaded sc st.fs.toDirState none = false
        ∧ env.fromShortcodeOk sc = true ∧ env.downloadFiles sc = some files
        ∧ env.placeOk sc = false
        ∧ processUrl env st url =
          { st with
              attempted := st.attempted ++ [url]
              processed := st.processed + 1
              fetchCalls := st.fetchCalls ++ [sc]
              fs := addTemp sc st.fs
              failed := st.failed + 1 })
    ∨ (∃ sc files, extractShortcode url = some sc
        ∧ is_already_downloaded sc st.fs.toDirState none = false
        ∧ env.fromShortcodeOk sc = true ∧ env.downloadFiles sc = some files
        ∧ env.placeOk sc = true
        ∧ processUrl env st url =
          { st with
              attempted := st.attempted ++ [url]
              processed := st.processed + 1
              fetchCalls := st.fetchCalls ++ [sc]
              fs := removeTemp sc (placeInFS (env.postOf sc) sc files (addTemp sc st.fs))
              successes := st.successes ++ [sc] }) := by
  cases hE : extractShortcode url with
  | none => exact Or.inl ⟨rfl, processUrl_parse env st url hE⟩
  | some sc =>
    cases hd : is_already_downloaded sc st.fs.toDirState none with
    | true => exact Or.inr (Or.inl ⟨sc, rfl, hd, processUrl_skip env st url sc hE hd⟩)
    | false =>
      cases hf : env.fromShortcodeOk sc with
      | false =>
        exact Or.inr (Or.inr (Or.inl ⟨sc, rfl, hd, hf,
          processUrl_early env st url sc hE hd hf⟩))
      | true =>
        cases hdl : env.downloadFiles sc with
        | none =>
          exact Or.inr (Or.inr (Or.inr (Or.inl ⟨sc, rfl, hd, hf, hdl,
            processUrl_dlfail env st url sc hE hd hf hdl⟩)))
        | some files =>
          cases hp : env.placeOk sc with
          | false =>
            exact Or.inr (Or.inr (Or.inr (Or.inr (Or.inl ⟨sc, files, rfl, hd, hf, hdl, hp,
              processUrl_placefail env st url sc files hE hd hf hdl hp⟩))))
          | true =>
            exact Or.inr (Or.inr (Or.inr (Or.inr (Or.inr ⟨sc, files, rfl, hd, hf, hdl, hp,
              processUrl_success env st url sc files hE hd hf hdl hp⟩))))

/-- Blank line: the state is unchanged. -/
theorem processLine_eq_blank (env : Env) (st : RunState) (l : List Char)
    (h : (stripL l).isEmpty = true) : processLine env st l = st := by
  unfold processLine
  simp [h]

/-- Non-blank line: the loop body runs on the stripped URL. -/
theorem processLine_eq_url (env : Env) (st : RunState) (l : List Char)
    (h : (stripL l).isEmpty = false) : processLine env st l = processUrl env st (stripL l) := by
  unfold processLine
  simp [h]

/-! Monotonicity of the filesystem along a run. -/

theorem FSle_refl (fs : FS) : FSle fs fs :=
  ⟨fun _ h => h, fun _ h => h, fun _ h => h⟩

theorem FSle_trans {a b c : FS} (h1 : FSle a b) (h2 : FSle b c) : FSle a c :=
  ⟨fun x hx => h2.1 x (h1.1 x hx), fun x hx => h2.2.1 x (h1.2.1 x hx),
    fun x hx => h2.2.2 x (h1.2.2 x hx)⟩

theorem FSle_addTemp (sc : List Char) (fs : FS) : FSle fs (addTemp sc fs) := by
  refine ⟨?_, ?_, ?_⟩ <;> intro x hx <;>
    simp only [addTemp_albums, addTemp_images, addTemp_videos] <;> exact hx

theorem FSle_placeChain (p : Post) (sc : List Char) (files : List (List Char)) (fs : FS) :
    FSle fs (removeTemp sc (placeInFS p sc files (addTemp sc fs))) := by
  refine ⟨?_, ?_, ?_⟩
  · intro x hx
    rw [removeTemp_albums]
    cases h : p.isAlbum with
    | true =>
      rw [placeInFS_albums_true p sc files _ h]
      exact addAlbumDir_mem_mono sc x _ (by rw [addTemp_albums]; exact hx)
    | false =>
      rw [placeInFS_albums_false p sc files _ h, addTemp_albums]
      exact hx
  · intro x hx
    rw [removeTemp_images, placeInFS_images, addTemp_images]
    exact List.mem_append_left _ hx
  · intro x hx
    rw [removeTemp_videos, placeInFS_videos, addTemp_videos]
    exact List.mem_append_left _ hx

theorem processUrl_fs_le (env : Env) (st : RunState) (url : List Char) :
    FSle st.fs (processUrl env st url).fs := by
  rcases processUrl_cases env st url with ⟨h, he⟩ | ⟨sc, h, hd, he⟩ | ⟨sc, h, hd, hf, he⟩ |
    ⟨sc, h, hd, hf, hdl, he⟩ | ⟨sc, files, h, hd, hf, hdl, hp, he⟩ |
    ⟨sc, files, h, hd, hf, hdl, hp, he⟩ <;> rw [he]
  · exact FSle_refl st.fs
  · exact FSle_refl st.fs
  · exact FSle_refl st.fs
  · exact FSle_addTemp sc st.fs
  · exact FSle_addTemp sc st.fs
  · exact FSle_placeChain (env.postOf sc) sc files st.fs

theorem processLine_fs_le (env : Env) (st : RunState) (l : List Char) :
    FSle st.fs (processLine env st l).fs := by
  cases h : (stripL l).isEmpty with
  | true => rw [processLine_eq_blank env st l h]; exact FSle_refl st.fs
  | false => rw [processLine_eq_url env st l h]; exact processUrl_fs_le env st (stripL l)

theorem runLines_fs_le (env : Env) : ∀ (ls : List (List Char)) (st : RunState),
    FSle st.fs (runLines env st ls).fs := by
  intro ls
  induction ls with
  | nil => intro st; exact FSle_refl st.fs
  | cons l ls ih =>
    intro st
    exact FSle_trans (processLine_fs_le env st l) (ih (processLine env st l))

theorem dedup_mono (sc : List Char) {a b : FS} (hle : FSle a b) :
    ∀ hint : Option PostType, is_already_downloaded sc a.toDirState hint = true →
      is_already_downloaded sc b.toDirState hint = true := by
  have halb : a.toDirState.albumDirs.any (fun x => x == sc) = true →
      b.toDirState.albumDirs.any (fun x => x == sc) = true := by
    intro h
    obtain ⟨x, hx, hxe⟩ := List.any_eq_true.mp h
    exact List.any_eq_true.mpr ⟨x, hle.1 x hx, hxe⟩
  have himg : scanDir a.toDirState.imagesDir sc = true →
      scanDir b.toDirState.imagesDir sc = true := by
    intro h
    obtain ⟨x, hx, hxe⟩ := List.any_eq_true.mp h
    exact List.any_eq_true.mpr ⟨x, hle.2.1 x hx, hxe⟩
  have hvid : scanDir a.toDirState.videosDir sc = true →
      scanDir b.toDirState.videosDir sc = true := by
    intro h
    obtain ⟨x, hx, hxe⟩ := List.any_eq_true.mp h
    exact List.any_eq_true.mpr ⟨x, hle.2.2 x hx, hxe⟩
  intro hint h
  cases hint with
  | none =>
    rw [dedup_none_eq] at h ⊢
    rcases Bool.or_eq_true _ _ |>.mp h with h2 | h3
    · rcases Bool.or_eq_true _ _ |>.mp h2 with h4 | h5
      · simp [halb h4]
      · simp [himg h5]
    · simp [hvid h3]
  | some pt =>
    cases pt with
    | album => exact halb h
    | image => exact himg h
    | video => exact hvid h

/-! Per-iteration component facts. -/

theorem processUrl_attempted (env : Env) (st : RunState) (url : List Char) :
    (processUrl env st url).attempted = st.attempted ++ [url] := by
  rcases processUrl_cases env st url with ⟨h, he⟩ | ⟨sc, h, hd, he⟩ | ⟨sc, h, hd, hf, he⟩ |
    ⟨sc, h, hd, hf, hdl, he⟩ | ⟨sc, files, h, hd, hf, hdl, hp, he⟩ |
    ⟨sc, files, h, hd, hf, hdl, hp, he⟩ <;> rw [he]

theorem processUrl_failed_le (env : Env) (st : RunState) (url : List Char) :
    st.failed ≤ (processUrl env st url).failed := by
  rcases processUrl_cases env st url with ⟨h, he⟩ | ⟨sc, h, hd, he⟩ | ⟨sc, h, hd, hf, he⟩ |
    ⟨sc, h, hd, hf, hdl, he⟩ | ⟨sc, files, h, hd, hf, hdl, hp, he⟩ |
    ⟨sc, files, h, hd, hf, hdl, hp, he⟩ <;> rw [he] <;> simp

theorem processLine_failed_le (env : Env) (st : RunState) (l : List Char) :
    st.failed ≤ (processLine env st l).failed := by
  cases h : (stripL l).isEmpty with
  | true => rw [processLine_eq_blank env st l h]
  | false => rw [processLine_eq_url env st l h]; exact processUrl_failed_le env st (stripL l)

theorem runLines_failed_le (env : Env) : ∀ (ls : List (List Char)) (st : RunState),
    st.failed ≤ (runLines env st ls).failed := by
  intro ls
  induction ls with
  | nil => intro st; exact Nat.le_refl _
  | cons l ls ih =>
    intro st
    exact Nat.le_trans (processLine_failed_le env st l) (ih (processLine env st l))

theorem processUrl_successes_sub (env : Env) (st : RunState) (url : List Char) :
    ∀ x ∈ st.successes, x ∈ (processUrl env st url).successes := by
  rcases processUrl_cases env st url with ⟨h, he⟩ | ⟨sc, h, hd, he⟩ | ⟨sc, h, hd, hf, he⟩ |
    ⟨sc, h, hd, hf, hdl, he⟩ | ⟨sc, files, h, hd, hf, hdl, hp, he⟩ |
    ⟨sc, files, h, hd, hf, hdl, hp, he⟩ <;> rw [he] <;> intro x hx <;> simp [hx]

theorem processLine_successes_sub (env : Env) (st : RunState) (l : List Char) :
    ∀ x ∈ st.successes, x ∈ (processLine env st l).successes := by
  cases h : (stripL l).isEmpty with
  | true => rw [processLine_eq_blank env st l h]; intro x hx; exact hx
  | false => rw [processLine_eq_url env st l h]; exact processUrl_successes_sub env st (stripL l)

theorem runLines_successes_sub (env : Env) : ∀ (ls : List (List Char)) (st : RunState),
    ∀ x ∈ st.successes, x ∈ (runLines env st ls).successes := by
  intro ls
  induction ls with
  | nil => intro st x hx; exact hx
  | cons l ls ih =>
    intro st x hx
    exact ih (processLine env st l) x (processLine_successes_sub env st l x hx)

/-! The iterated URLs and the counter invariant. -/

theorem runLines_attempted (env : Env) : ∀ (ls : List (List Char)) (st : RunState),
    (runLines env st ls).attempted =
      st.attempted ++ (ls.map stripL).filter (fun u => !u.isEmpty) := by
  intro ls
  induction ls with
  | nil => intro st; simp [runLines]
  | cons l ls ih =>
    intro st
    show (runLines env (processLine env st l) ls).attempted = _
    rw [ih]
    cases h : (stripL l).isEmpty with
    | true =>
      rw [processLine_eq_blank env st l h]
      simp [List.filter_cons, h]
    | false =>
      rw [processLine_eq_url env st l h, processUrl_attempted]
      simp [List.filter_cons, h]

theorem processLine_inv (env : Env) (st : RunState) (l : List Char)
    (h1 : st.attempted.length = st.skipped + st.failed + st.successes.length)
    (h2 : st.processed + parseFailCount st = st.attempted.length) :
    (processLine env st l).attempted.length =
        (processLine env st l).skipped + (processLine env st l).failed +
          (processLine env st l).successes.length
      ∧ (processLine env st l).processed + parseFailCount (processLine env st l) =
        (processLine env st l).attempted.length := by
  cases hb : (stripL l).isEmpty with
  | true => rw [processLine_eq_blank env st l hb]; exact ⟨h1, h2⟩
  | false =>
    rw [processLine_eq_url env st l hb]
    rcases processUrl_cases env st (stripL l) with ⟨h, he⟩ | ⟨sc, h, hd, he⟩ |
      ⟨sc, h, hd, hf, he⟩ | ⟨sc, h, hd, hf, hdl, he⟩ | ⟨sc, files, h, hd, hf, hdl, hp, he⟩ |
      ⟨sc, files, h, hd, hf, hdl, hp, he⟩
    ·
      rw [he]
      have hcp : List.countP (fun u => (extractShortcode u).isNone) [stripL l] = 1 := by
        simp [h]
      constructor <;>
        simp only [parseFailCount, List.countP_append, hcp, List.length_append,
          List.length_cons, List.length_nil] at h2 ⊢ <;>
        omega
    ·
      rw [he]
      have hcp : List.countP (fun u => (extractShortcode u).isNone) [stripL l] = 0 := by
        simp [h]
      constructor <;>
        simp only [parseFailCount, List.countP_append, hcp, List.length_append,
          List.length_cons, List.length_nil] at h2 ⊢ <;>
        omega
    ·
      rw [he]
      have hcp : List.countP (fun u => (extractShortcode u).isNone) [stripL l] = 0 := by
        simp [h]
      constructor <;>
        simp only [parseFailCount, List.countP_append, hcp, List.length_append,
          List.length_cons, List.length_nil] at h2 ⊢ <;>
        omega
    ·
      rw [he]
      have hcp : List.countP (fun u => (extractShortcode u).isNone) [stripL l] = 0 := by
        simp [h]
      constructor <;>
        simp only [parseFailCount, List.countP_append, hcp, List.length_append,
          List.length_cons, List.length_nil] at h2 ⊢ <;>
        omega
    ·
      rw [he]
      have hcp : List.countP (fun u => (extractShortcode u).isNone) [stripL l] = 0 := by
        simp [h]
      constructor <;>
        simp only [parseFailCount, List.countP_append, hcp, List.length_append,
          List.length_cons, List.length_nil] at h2 ⊢ <;>
        omega
    ·
      rw [he]
      have hcp : List.countP (fun u => (extractShortcode u).isNone) [stripL l] = 0 := by
        simp [h]
      constructor <;>
        simp only [parseFailCount, List.countP_append, hcp, List.length_append,
          List.length_cons, List.length_nil] at h2 ⊢ <;>
        omega

theorem runLines_inv (env : Env) : ∀ (ls : List (List Char)) (st : RunState),
    st.attempted.length = st.skipped + st.failed + st.successes.length →
    st.processed + parseFailCount st = st.attempted.length →
    (runLines env st ls).attempted.length =
        (runLines env st ls).skipped + (runLines env st ls).failed +
          (runLines env st ls).successes.length
      ∧ (runLines env st ls).processed + parseFailCount (runLines env st ls) =
        (runLines env st ls).attempted.length := by
  intro ls
  induction ls with
  | nil => intro st h1 h2; exact ⟨h1, h2⟩
  | cons l ls ih =>
    intro st h1 h2
    obtain ⟨g1, g2⟩ := processLine_inv env st l h1 h2
    exact ih (processLine env st l) g1 g2

theorem totalUrls_eq (lines : List (List Char)) :
    totalUrls lines = ((lines.map stripL).filter (fun u => !u.isEmpty)).length := by
  unfold totalUrls
  rw [← List.countP_eq_length_filter, List.countP_map]
  rfl

/-! Claims about the summary counters. -/

/-- C1, corrected.  The reported succeeded count is the number of completed
URLs minus the number of parse failures, so the claimed identities hold
exactly when no URL fails to parse; in general the total exceeds
succeeded + skipped + failed by the number of parse failures, because
processed is only incremented after extraction succeeds while a parse failure
still increments failed. -/
theorem claim_C1_amended : ∀ (env : Env) (fs₀ : FS) (lines : List (List Char)),
    reported (run env fs₀ lines) =
        ((run env fs₀ lines).successes.length : Int) - (parseFailCount (run env fs₀ lines) : Int)
      ∧ (totalUrls lines : Int) =
        reported (run env fs₀ lines) + ((run env fs₀ lines).skipped : Int) +
          ((run env fs₀ lines).failed : Int) + (parseFailCount (run env fs₀ lines) : Int)
      ∧ (parseFailCount (run env fs₀ lines) = 0 →
          reported (run env fs₀ lines) = ((run env fs₀ lines).successes.length : Int)
          ∧ totalUrls lines =
            (run env fs₀ lines).successes.length + (run env fs₀ lines).skipped +
              (run env fs₀ lines).failed) := by
  intro env fs₀ lines
  have hatt : (run env fs₀ lines).attempted =
      (lines.map stripL).filter (fun u => !u.isEmpty) := by
    have h := runLines_attempted env lines (initState fs₀)
    simpa [run, initState] using h
  have htot : totalUrls lines = (run env fs₀ lines).attempted.length := by
    rw [hatt, totalUrls_eq]
  have hinv := runLines_inv env lines (initState fs₀) (by simp [initState])
    (by simp [initState, parseFailCount])
  have h1 : (run env fs₀ lines).attempted.length =
      (run env fs₀ lines).skipped + (run env fs₀ lines).failed +
        (run env fs₀ lines).successes.length := hinv.1
  have h2 : (run env fs₀ lines).processed + parseFailCount (run env fs₀ lines) =
      (run env fs₀ lines).attempted.length := hinv.2
  unfold reported
  refine ⟨by omega, by omega, fun hpf => ⟨by omega, by omega⟩⟩

/-- Witness for C1: the five-URL run has no parse failures, so the reported
succeeded count equals the number of completed URLs and the summary identity
holds. -/
theorem claim_C1_witness :
    reported (run env5 emptyFS urls5) = ((run env5 emptyFS urls5).successes.length : Int)
    ∧ totalUrls urls5 =
        (run env5 emptyFS urls5).successes.length + (run env5 emptyFS urls5).skipped +
          (run env5 emptyFS urls5).failed :=
  (claim_C1_amended env5 emptyFS urls5).2.2 (by decide)

/-- Counterexample for C1 as stated: a single non-parsing line yields a
summary with succeeded = -1 although no URL completed, and
total = 1 differs from succeeded + skipped + failed = 0. -/
theorem claim_C1_counterexample :
    totalUrls [str "nonsense"] = 1
    ∧ (run envNone emptyFS [str "nonsense"]).successes.length = 0
    ∧ reported (run envNone emptyFS [str "nonsense"]) = -1
    ∧ (totalUrls [str "nonsense"] : Int) ≠
        reported (run envNone emptyFS [str "nonsense"]) +
          ((run envNone emptyFS [str "nonsense"]).skipped : Int) +
          ((run envNone emptyFS [str "nonsense"]).failed : Int) := by decide

/-! Claim about per-URL failure isolation. -/

/-- C5, confirmed.  In every run each non-blank URL is attempted, in file
order, whatever the outcomes of the others — the loop never stops early — and
in the concrete five-URL scenario where the fetch of the third URL raises, the
summary reports five total, one failed, none skipped, and the other four URLs
complete. -/
theorem claim_C5 :
    (∀ (env : Env) (fs₀ : FS) (lines : List (List Char)),
      (run env fs₀ lines).attempted = (lines.map stripL).filter (fun u => !u.isEmpty))
    ∧ totalUrls urls5 = 5
    ∧ (run env5 emptyFS urls5).failed = 1
    ∧ (run env5 emptyFS urls5).attempted = urls5
    ∧ (run env5 emptyFS urls5).skipped = 0
    ∧ (run env5 emptyFS urls5).successes = [str "a1", str "a2", str "a4", str "a5"] := by
  refine ⟨?_, by decide, by decide, by decide, by decide, by decide⟩
  intro env fs₀ lines
  have h := runLines_attempted env lines (initState fs₀)
  simpa [run, initState] using h

/-! Claim about temporary-directory cleanup. -/

/-- C3, corrected.  The temporary directory is removed only when download,
classification and placement all succeed; an exception raised after the
directory is created (download or placement) leaves temp_<shortcode> behind at
the end of the iteration, while a failure before creation leaves the
filesystem unchanged.  A run can therefore leave one temporary directory per
URL that fails after creation (see the counterexample). -/
theorem claim_C3_amended : ∀ (env : Env) (st : RunState) (url sc : List Char),
    extractShortcode url = some sc →
    is_already_downloaded sc st.fs.toDirState none = false →
    ((env.fromShortcodeOk sc = false → (processUrl env st url).fs = st.fs)
      ∧ (env.fromShortcodeOk sc = true → env.downloadFiles sc = none →
          tempName sc ∈ (processUrl env st url).fs.temps)
      ∧ (∀ files, env.fromShortcodeOk sc = true → env.downloadFiles sc = some files →
          env.placeOk sc = false → tempName sc ∈ (processUrl env st url).fs.temps)
      ∧ (∀ files, env.fromShortcodeOk sc = true → env.downloadFiles sc = some files →
          env.placeOk sc = true → tempName sc ∉ (processUrl env st url).fs.temps)) := by
  intro env st url sc h hd
  refine ⟨?_, ?_, ?_, ?_⟩
  · intro hf
    rw [processUrl_early env st url sc h hd hf]
  · intro hf hdl
    rw [processUrl_dlfail env st url sc h hd hf hdl]
    exact addTemp_mem sc st.fs
  · intro files hf hdl hp
    rw [processUrl_placefail env st url sc files h hd hf hdl hp]
    exact addTemp_mem sc st.fs
  · intro files hf hdl hp
    rw [processUrl_success env st url sc files h hd hf hdl hp]
    exact removeTemp_not_mem sc _

/-- Witness for C3: a download failure for shortcode xyz leaves temp_xyz in
place, and a successful fetch of shortcode abc leaves no temp_abc. -/
theorem claim_C3_witness :
    tempName (str "xyz") ∈ (processUrl envDownloadErr (initState emptyFS) urlXyz).fs.temps
    ∧ tempName (str "abc") ∉ (processUrl envAlbum (initState emptyFS) urlAbc).fs.temps :=
  ⟨(claim_C3_amended envDownloadErr (initState emptyFS) urlXyz (str "xyz")
      (by decide) (by decide)).2.1 (by decide) (by decide),
    (claim_C3_amended envAlbum (initState emptyFS) urlAbc (str "abc")
      (by decide) (by decide)).2.2.2 [str "1.jpg", str "2.jpg"] (by decide) (by decide)
      (by decide)⟩

/-- Counterexample for C3 as stated: after processing a URL whose download
raises, the per-shortcode temporary directory still exists at the end of the
iteration, and a two-URL run leaves two temporary directories. -/
theorem claim_C3_counterexample :
    (run envDownloadErr emptyFS [urlXyz]).fs.temps = [tempName (str "xyz")]
    ∧ (run envDownloadErr emptyFS [urlXyz, urlWvu]).fs.temps =
        [tempName (str "xyz"), tempName (str "wvu")] := by decide

/-! Lemmas for idempotent resumability. -/

theorem success_evidence (env : Env) (sc : List Char) (files : List (List Char)) (fs : FS)
    (hdl : env.downloadFiles sc = some files) (hdet : detectable env sc = true) :
    is_already_downloaded sc
      (removeTemp sc (placeInFS (env.postOf sc) sc files (addTemp sc fs))).toDirState none =
      true := by
  unfold detectable at hdet
  rw [hdl] at hdet
  rw [dedup_none_eq]
  simp only [FS.toDirState]
  rcases Bool.or_eq_true _ _ |>.mp hdet with halb | hany
  · have hmem : sc ∈
        (removeTemp sc (placeInFS (env.postOf sc) sc files (addTemp sc fs))).albums := by
      rw [removeTemp_albums, placeInFS_albums_true _ _ _ _ halb]
      exact addAlbumDir_mem_self sc _
    have hany2 : (removeTemp sc
        (placeInFS (env.postOf sc) sc files (addTemp sc fs))).albums.any
          (fun a => a == sc) = true :=
      List.any_eq_true.mpr ⟨sc, hmem, by simp⟩
    simp [hany2]
  · obtain ⟨f, hf, hprop⟩ := List.any_eq_true.mp hany
    obtain ⟨hmoved, hcontains⟩ := Bool.and_eq_true _ _ |>.mp hprop
    unfold movedFlat at hmoved
    rcases Bool.or_eq_true _ _ |>.mp hmoved with him | hvid
    · have hdi : destOf (env.postOf sc).isAlbum (env.postOf sc).isVideo f = Dest.toImages :=
        of_decide_eq_true him
      have hmemf : f ∈
          (removeTemp sc (placeInFS (env.postOf sc) sc files (addTemp sc fs))).images := by
        rw [removeTemp_images, placeInFS_images, addTemp_images]
        exact List.mem_append_right _ (List.mem_filter.mpr ⟨hf, by simp [hdi]⟩)
      have hscan : scanDir (some (removeTemp sc
          (placeInFS (env.postOf sc) sc files (addTemp sc fs))).images) sc = true := by
        unfold scanDir
        exact List.any_eq_true.mpr ⟨f, hmemf, hcontains⟩
      simp [hscan]
    · have hdi : destOf (env.postOf sc).isAlbum (env.postOf sc).isVideo f = Dest.toVideos :=
        of_decide_eq_true hvid
      have hmemf : f ∈
          (removeTemp sc (placeInFS (env.postOf sc) sc files (addTemp sc fs))).videos := by
        rw [removeTemp_videos, placeInFS_videos, addTemp_videos]
        exact List.mem_append_right _ (List.mem_filter.mpr ⟨hf, by simp [hdi]⟩)
      have hscan : scanDir (some (removeTemp sc
          (placeInFS (env.postOf sc) sc files (addTemp sc fs))).videos) sc = true := by
        unfold scanDir
        exact List.any_eq_true.mpr ⟨f, hmemf, hcontains⟩
      simp [hscan]

theorem processUrl_fetchCalls_cases (env : Env) (st : RunState) (url : List Char) :
    (processUrl env st url).fetchCalls = st.fetchCalls
    ∨ ∃ sc, extractShortcode url = some sc
        ∧ is_already_downloaded sc st.fs.toDirState none = false
        ∧ (processUrl env st url).fetchCalls = st.fetchCalls ++ [sc] := by
  rcases processUrl_cases env st url with ⟨h, he⟩ | ⟨sc, h, hd, he⟩ | ⟨sc, h, hd, hf, he⟩ |
    ⟨sc, h, hd, hf, hdl, he⟩ | ⟨sc, files, h, hd, hf, hdl, hp, he⟩ |
    ⟨sc, files, h, hd, hf, hdl, hp, he⟩
  · exact Or.inl (by rw [he])
  · exact Or.inl (by rw [he])
  · exact Or.inr ⟨sc, h, hd, by rw [he]⟩
  · exact Or.inr ⟨sc, h, hd, by rw [he]⟩
  · exact Or.inr ⟨sc, h, hd, by rw [he]⟩
  · exact Or.inr ⟨sc, h, hd, by rw [he]⟩

theorem processUrl_successes_cases (env : Env) (st : RunState) (url : List Char) :
    (processUrl env st url).successes = st.successes
    ∨ ∃ sc files, extractShortcode url = some sc
        ∧ is_already_downloaded sc st.fs.toDirState none = false
        ∧ env.downloadFiles sc = some files
        ∧ (processUrl env st url).successes = st.successes ++ [sc]
        ∧ (processUrl env st url).fs =
            removeTemp sc (placeInFS (env.postOf sc) sc files (addTemp sc st.fs)) := by
  rcases processUrl_cases env st url with ⟨h, he⟩ | ⟨sc, h, hd, he⟩ | ⟨sc, h, hd, hf, he⟩ |
    ⟨sc, h, hd, hf, hdl, he⟩ | ⟨sc, files, h, hd, hf, hdl, hp, he⟩ |
    ⟨sc, files, h, hd, hf, hdl, hp, he⟩
  · exact Or.inl (by rw [he])
  · exact Or.inl (by rw [he])
  · exact Or.inl (by rw [he])
  · exact Or.inl (by rw [he])
  · exact Or.inl (by rw [he])
  · exact Or.inr ⟨sc, files, h, hd, hdl, by rw [he], by rw [he]⟩

theorem runLines_nofetch (env : Env) (sc : List Char) : ∀ (ls : List (List Char)) (st : RunState),
    is_already_downloaded sc st.fs.toDirState none = true →
    sc ∈ (runLines env st ls).fetchCalls → sc ∈ st.fetchCalls := by
  intro ls
  induction ls with
  | nil => intro st _ h; exact h
  | cons l ls ih =>
    intro st hdedup hmem
    have hd2 : is_already_downloaded sc (processLine env st l).fs.toDirState none = true :=
      dedup_mono sc (processLine_fs_le env st l) none hdedup
    have hmem2 : sc ∈ (processLine env st l).fetchCalls := ih (processLine env st l) hd2 hmem
    cases hb : (stripL l).isEmpty with
    | true => rw [processLine_eq_blank env st l hb] at hmem2; exact hmem2
    | false =>
      rw [processLine_eq_url env st l hb] at hmem2
      rcases processUrl_fetchCalls_cases env st (stripL l) with heq | ⟨sc2, h2, hd3, heq⟩
      · rw [heq] at hmem2; exact hmem2
      · rw [heq] at hmem2
        rcases List.mem_append.mp hmem2 with hin | hin
        · exact hin
        · exfalso
          have hsceq : sc = sc2 := by simpa using hin
          rw [← hsceq] at hd3
          exact Bool.false_ne_true (hd3.symm.trans hdedup)

theorem runLines_success_dedup (env : Env) (sc : List Char) (hdet : detectable env sc = true) :
    ∀ (ls : List (List Char)) (st : RunState),
    sc ∈ (runLines env st ls).successes →
    sc ∈ st.successes ∨
      is_already_downloaded sc (runLines env st ls).fs.toDirState none = true := by
  intro ls
  induction ls with
  | nil => intro st h; exact Or.inl h
  | cons l ls ih =>
    intro st hmem
    rcases ih (processLine env st l) hmem with hin | hded
    · cases hb : (stripL l).isEmpty with
      | true => rw [processLine_eq_blank env st l hb] at hin; exact Or.inl hin
      | false =>
        rw [processLine_eq_url env st l hb] at hin
        rcases processUrl_successes_cases env st (stripL l) with heq |
          ⟨sc2, files, h2, hd2, hdl2, heq, hfs⟩
        · rw [heq] at hin; exact Or.inl hin
        · rw [heq] at hin
          rcases List.mem_append.mp hin with hin2 | hin2
          · exact Or.inl hin2
          · have hsceq : sc = sc2 := by simpa using hin2
            subst hsceq
            right
            have hev : is_already_downloaded sc
                (processLine env st l).fs.toDirState none = true := by
              rw [processLine_eq_url env st l hb, hfs]
              exact success_evidence env sc files st.fs hdl2 hdet
            exact dedup_mono sc (runLines_fs_le env ls (processLine env st l)) none hev
    · exact Or.inr hded

theorem runLines_all_dedup (env : Env) : ∀ (ls : List (List Char)) (st : RunState),
    (runLines env st ls).failed = st.failed →
    (∀ sc ∈ (runLines env st ls).successes, detectable env sc = true) →
    ∀ l ∈ ls, (stripL l).isEmpty = false →
      ∃ sc, extractShortcode (stripL l) = some sc ∧
        is_already_downloaded sc (runLines env st ls).fs.toDirState none = true := by
  intro ls
  induction ls with
  | nil => intro st _ _ l hl; exact absurd hl (List.not_mem_nil l)
  | cons l0 ls ih =>
    intro st hfail hdet l hl hblank
    have hchain : (runLines env st (l0 :: ls)).failed =
        (runLines env (processLine env st l0) ls).failed := rfl
    have hstep : (processLine env st l0).failed = st.failed := by
      have ha := processLine_failed_le env st l0
      have hb := runLines_failed_le env ls (processLine env st l0)
      rw [hchain] at hfail
      omega
    rcases List.mem_cons.mp hl with rfl | hl2
    · rcases processUrl_cases env st (stripL l) with ⟨h, he⟩ | ⟨sc, h, hd, he⟩ |
        ⟨sc, h, hd, hf, he⟩ | ⟨sc, h, hd, hf, hdl, he⟩ |
        ⟨sc, files, h, hd, hf, hdl, hp, he⟩ | ⟨sc, files, h, hd, hf, hdl, hp, he⟩
      · rw [processLine_eq_url env st l hblank, he] at hstep; simp at hstep
      · refine ⟨sc, h, ?_⟩
        have hle : FSle st.fs (runLines env st (l :: ls)).fs :=
          FSle_trans (processLine_fs_le env st l) (runLines_fs_le env ls (processLine env st l))
        exact dedup_mono sc hle none hd
      · rw [processLine_eq_url env st l hblank, he] at hstep; simp at hstep
      · rw [processLine_eq_url env st l hblank, he] at hstep; simp at hstep
      · rw [processLine_eq_url env st l hblank, he] at hstep; simp at hstep
      · refine ⟨sc, h, ?_⟩
        have hmem : sc ∈ (runLines env st (l :: ls)).successes := by
          show sc ∈ (runLines env (processLine env st l) ls).successes
          apply runLines_successes_sub
          rw [processLine_eq_url env st l hblank, he]
          simp
        have hdet2 := hdet sc hmem
        have hev : is_already_downloaded sc
            (processLine env st l).fs.toDirState none = true := by
          rw [processLine_eq_url env st l hblank, he]
          exact success_evidence env sc files st.fs hdl hdet2
        exact dedup_mono sc (runLines_fs_le env ls (processLine env st l)) none hev
    · refine ih (processLine env st l0) ?_ ?_ l hl2 hblank
      · rw [hchain] at hfail
        rw [hfail, hstep]
      · intro sc hsc
        exact hdet sc hsc

theorem runLines_all_skip (env : Env) : ∀ (ls : List (List Char)) (st : RunState),
    (∀ l ∈ ls, (stripL l).isEmpty = false →
      ∃ sc, extractShortcode (stripL l) = some sc ∧
        is_already_downloaded sc st.fs.toDirState none = true) →
    (runLines env st ls).fetchCalls = st.fetchCalls
    ∧ (runLines env st ls).processed + st.skipped =
        (runLines env st ls).skipped + st.processed := by
  intro ls
  induction ls with
  | nil =>
    intro st _
    refine ⟨rfl, ?_⟩
    show st.processed + st.skipped = st.skipped + st.processed
    omega
  | cons l ls ih =>
    intro st hyp
    have hyp2 : ∀ l2 ∈ ls, (stripL l2).isEmpty = false →
        ∃ sc2, extractShortcode (stripL l2) = some sc2 ∧
          is_already_downloaded sc2 (processLine env st l).fs.toDirState none = true := by
      intro l2 hl2 hb2
      obtain ⟨sc2, hsc2, hded2⟩ := hyp l2 (List.mem_cons_of_mem l hl2) hb2
      exact ⟨sc2, hsc2, dedup_mono sc2 (processLine_fs_le env st l) none hded2⟩
    obtain ⟨ih1, ih2⟩ := ih (processLine env st l) hyp2
    cases hb : (stripL l).isEmpty with
    | true =>
      have hpl := processLine_eq_blank env st l hb
      constructor
      · show (runLines env (processLine env st l) ls).fetchCalls = st.fetchCalls
        rw [ih1, hpl]
      · show (runLines env (processLine env st l) ls).processed + st.skipped =
          (runLines env (processLine env st l) ls).skipped + st.processed
        have e1 : (processLine env st l).skipped = st.skipped := by rw [hpl]
        have e2 : (processLine env st l).processed = st.processed := by rw [hpl]
        omega
    | false =>
      obtain ⟨sc, hsc, hded⟩ := hyp l (List.mem_cons_self l ls) hb
      have hpl : processLine env st l =
          { st with
              attempted := st.attempted ++ [stripL l]
              processed := st.processed + 1
              skipped := st.skipped + 1 } := by
        rw [processLine_eq_url env st l hb]
        exact processUrl_skip env st (stripL l) sc hsc hded
      constructor
      · show (runLines env (processLine env st l) ls).fetchCalls = st.fetchCalls
        rw [ih1, hpl]
      · show (runLines env (processLine env st l) ls).processed + st.skipped =
          (runLines env (processLine env st l) ls).skipped + st.processed
        have e1 : (processLine env st l).skipped = st.skipped + 1 := by rw [hpl]
        have e2 : (processLine env st l).processed = st.processed + 1 := by rw [hpl]
        omega

/-! Claim about idempotent resumability. -/

/-- C2, corrected.  A URL that completed successfully in the first run is not
fetched by a second run over the same list provided it is detectable by the
dedup check — which always holds for an album, but for a single image or
video only when some moved filename contains the shortcode as a substring;
and when the first run had no failures and all its successes are detectable,
the second run fetches nothing and skips every processed URL.  Without the
detectability proviso the claim fails (see the counterexample): the fetch
capability can produce filenames that do not contain the shortcode, and such
single-media downloads are fetched again. -/
theorem claim_C2_amended : ∀ (env : Env) (fs₀ : FS) (lines : List (List Char)),
    (∀ sc, sc ∈ (run env fs₀ lines).successes → detectable env sc = true →
      sc ∉ (run env (run env fs₀ lines).fs lines).fetchCalls)
    ∧ ((run env fs₀ lines).failed = 0 →
        (∀ sc ∈ (run env fs₀ lines).successes, detectable env sc = true) →
        (run env (run env fs₀ lines).fs lines).fetchCalls = []
        ∧ (run env (run env fs₀ lines).fs lines).skipped =
            (run env (run env fs₀ lines).fs lines).processed) := by
  intro env fs₀ lines
  constructor
  · intro sc hsucc hdet hmem
    have hded : is_already_downloaded sc (run env fs₀ lines).fs.toDirState none = true := by
      rcases runLines_success_dedup env sc hdet lines (initState fs₀) hsucc with hin | h
      · simp [initState] at hin
      · exact h
    have hfin := runLines_nofetch env sc lines (initState (run env fs₀ lines).fs) hded hmem
    simp [initState] at hfin
  · intro hfail hdet
    have hall := runLines_all_dedup env lines (initState fs₀)
      (by simpa [run, initState] using hfail) hdet
    obtain ⟨hf, hps⟩ := runLines_all_skip env lines (initState (run env fs₀ lines).fs) hall
    constructor
    · exact hf
    · have hps2 : (run env (run env fs₀ lines).fs lines).processed + 0 =
          (run env (run env fs₀ lines).fs lines).skipped + 0 := hps
      omega

/-- Witness for C2: for an album post the second run over the same single-URL
list fetches nothing and skips the processed URL. -/
theorem claim_C2_witness :
    (run envAlbum (run envAlbum emptyFS [urlAbc]).fs [urlAbc]).fetchCalls = []
    ∧ (run envAlbum (run envAlbum emptyFS [urlAbc]).fs [urlAbc]).skipped =
        (run envAlbum (run envAlbum emptyFS [urlAbc]).fs [urlAbc]).processed := by
  refine (claim_C2_amended envAlbum emptyFS [urlAbc]).2 (by decide) ?_
  intro sc hsc
  have hs : (run envAlbum emptyFS [urlAbc]).successes = [str "abc"] := by decide
  rw [hs] at hsc
  have hsceq : sc = str "abc" := by simpa using hsc
  subst hsceq
  decide

/-- Counterexample for C2 as stated: a single image completes in the first
run, but its produced filename photo1.jpg does not contain the shortcode abc,
so the second run fetches it again and skips nothing. -/
theorem claim_C2_counterexample :
    (run envSingleImage emptyFS [urlAbc]).successes = [str "abc"]
    ∧ (run envSingleImage (run envSingleImage emptyFS [urlAbc]).fs [urlAbc]).fetchCalls =
        [str "abc"]
    ∧ (run envSingleImage (run envSingleImage emptyFS [urlAbc]).fs [urlAbc]).skipped = 0 := by
  decide

/-! Claim about fatal setup errors. -/

/-- C9, confirmed.  The setup phase completes to the loop and the summary
exactly when the input file exists, the cookie file (when supplied) loads, and
the proxy test (when a proxy is supplied and testing is not skipped) passes;
every other configuration aborts before any URL is touched, and a completed
run carries the full loop result. -/
theorem claim_C9 : ∀ (cfg : Config) (env : Env) (fs : FS),
    ((mainRun cfg env fs).isCompleted =
      (cfg.inputFileExists && !(cfg.cookies == some false) &&
        !(cfg.proxy.isSome && !cfg.skipProxyTest && !cfg.proxyWorks)))
    ∧ (mainRun cfg env fs = .completed (run env fs cfg.lines)
        ∨ (mainRun cfg env fs).isCompleted = false) := by
  intro cfg env fs
  constructor
  · unfold mainRun
    split
    · next h => simp [MainResult.isCompleted, h]
    · next h =>
      simp only [Bool.not_eq_true] at h
      split
      · next h2 => simp [MainResult.isCompleted, h2]
      · next h2 =>
        simp only [Bool.not_eq_true] at h2
        split
        · next h3 =>
          simp only [Bool.not_eq_true'] at h3
          simp [MainResult.isCompleted, h, h2, h3]
        · next h3 =>
          simp only [Bool.not_eq_true, Bool.not_eq_false'] at h3
          simp [MainResult.isCompleted, h, h2, h3]
  · unfold mainRun
    split
    · exact Or.inr rfl
    · split
      · exact Or.inr rfl
      · split
        · exact Or.inr rfl
        · exact Or.inl rfl

end InstaDL
